import Mathlib

/-!
Verification of the quantum state-vector simulator core of this repository.

The embedding below is a shallow translation of the simulator code:

* `src/src/cpp/quantum_simulator.cpp` — class `QuantumSimulator` with
  `applyH`, `applyX`, `applyCNOT`, `applyRY`, `measure`, `createBellState`,
  `getProbabilities` over a `vector<Complex>` of length `2^n`.
* `src/languages/c/quantum_simulator.c` — `create_state`, `initialize_state`,
  `apply_hadamard`, `apply_pauli_x`, `apply_gate` over a `double complex`
  array of length `2^n`.

An amplitude vector is modelled as a function `ℕ → ℂ`; the simulator only
ever touches indices `< 2 ^ n`, and every quantitative statement below sums
over `Finset.range (2 ^ n)`.  The gate loops of the source partition the
index space into pairs `(idx0, idx1) = (i + j, i + j + stride)` with
`stride = 2 ^ q`; `idx0` is exactly an index whose `q`-th bit is clear and
`idx1 = idx0 ^^^ 2 ^ q` the matching index with the bit set, so each loop is
the pointwise update recorded in the corresponding definition.  The random
number `r` drawn inside `measure` by the C++ code (`dist(rng)`, uniform on
`[0,1)`) is threaded as an explicit argument.
-/

namespace QuantumSim

noncomputable section

open Finset

/-- Amplitude vector set up by the `QuantumSimulator(int n)` constructor:
`state_vector.resize(dim, 0)` followed by `state_vector[0] = 1`. -/
def initState : ℕ → ℂ := fun i => if i = 0 then 1 else 0

/-- `QuantumSimulator::applyH`: for each pair `(idx0, idx1)` the amplitudes
`(a, b)` become `((a+b)/√2, (a−b)/√2)`.  Index `k` with bit `q` set is an
`idx1` (so receives `(a−b)/√2` with `a` at `k ^^^ 2^q`), otherwise it is an
`idx0`. -/
def applyH (q : ℕ) (s : ℕ → ℂ) : ℕ → ℂ := fun k =>
  if k.testBit q then (s (k ^^^ 2 ^ q) - s k) / (Real.sqrt 2 : ℂ)
  else (s k + s (k ^^^ 2 ^ q)) / (Real.sqrt 2 : ℂ)

/-- `QuantumSimulator::applyX`: swap the two amplitudes of every pair. -/
def applyX (q : ℕ) (s : ℕ → ℂ) : ℕ → ℂ := fun k => s (k ^^^ 2 ^ q)

/-- `QuantumSimulator::applyCNOT`: the loop swaps `state_vector[i]` with
`state_vector[i ^ target_mask]` exactly at those `i` whose control bit is set
and whose target bit is clear.  Index `k` therefore receives the amplitude of
its mate `k ^^^ 2^t` when `k` itself is such an `i`, or when its mate is; in
every other case (including `c = t`, where the swap condition is
unsatisfiable) it keeps its own amplitude. -/
def applyCNOT (c t : ℕ) (s : ℕ → ℂ) : ℕ → ℂ := fun k =>
  if k.testBit c ∧ ¬ k.testBit t then s (k ^^^ 2 ^ t)
  else if (k ^^^ 2 ^ t).testBit c ∧ ¬ (k ^^^ 2 ^ t).testBit t then s (k ^^^ 2 ^ t)
  else s k

/-- `QuantumSimulator::applyRY`: with `θ = theta/2` each pair `(a, b)`
becomes `(cos θ · a − sin θ · b, sin θ · a + cos θ · b)`. -/
def applyRY (q : ℕ) (theta : ℝ) (s : ℕ → ℂ) : ℕ → ℂ := fun k =>
  if k.testBit q then
    (Real.sin (theta / 2) : ℂ) * s (k ^^^ 2 ^ q) + (Real.cos (theta / 2) : ℂ) * s k
  else
    (Real.cos (theta / 2) : ℂ) * s k - (Real.sin (theta / 2) : ℂ) * s (k ^^^ 2 ^ q)

/-- First loop of `QuantumSimulator::measure`: `prob0` accumulates
`norm(state_vector[i])` over the indices `i < 2^n` with `(i & mask) == 0`. -/
def prob0 (n q : ℕ) (s : ℕ → ℂ) : ℝ :=
  ∑ i ∈ Finset.range (2 ^ n), if i.testBit q then 0 else Complex.normSq (s i)

/-- `QuantumSimulator::measure` after the random draw `r`: if `r < prob0`
the state is projected onto the bit-0 branch (bit-1 amplitudes zeroed, the
rest divided by `√prob0`) and `0` is returned; otherwise onto the bit-1
branch with divisor `√(1 − prob0)`, returning `1`. -/
def measure (n q : ℕ) (r : ℝ) (s : ℕ → ℂ) : ℕ × (ℕ → ℂ) :=
  if r < prob0 n q s then
    (0, fun i => if i.testBit q then 0 else s i / (Real.sqrt (prob0 n q s) : ℂ))
  else
    (1, fun i => if i.testBit q then s i / (Real.sqrt (1 - prob0 n q s) : ℂ) else 0)

/-- `QuantumSimulator::createBellState` on a fresh 2-qubit register:
`applyH(0)` then `applyCNOT(0, 1)`. -/
def createBellState : ℕ → ℂ := applyCNOT 0 1 (applyH 0 initState)

/-- `QuantumSimulator::getProbabilities`: `probs[i] = norm(state_vector[i])`. -/
def probabilities (s : ℕ → ℂ) : ℕ → ℝ := fun i => Complex.normSq (s i)

/-- Total probability mass of the register, `sum(|amplitudes[i]|^2)` over the
`2^n` stored amplitudes. -/
def normSum (n : ℕ) (s : ℕ → ℂ) : ℝ :=
  ∑ i ∈ Finset.range (2 ^ n), Complex.normSq (s i)

/-- The error taxonomy named by the spec (`CapacityError`, `InvalidQubitIndex`,
`UnsupportedGateError`).  The simulator sources never raise any of them: the
C++ member functions return `void`/`int` with no `throw`, and the C file
reports problems through `stderr` while returning normally. -/
inductive SimError
  | CapacityError
  | InvalidQubitIndex
  | UnsupportedGateError
deriving DecidableEq

/-- Outcome of running `QuantumSimulator::applyCNOT(c, t)` as a call: the C++
body contains no `throw` and no validity check, so every call returns
normally with the transformed amplitudes. -/
def applyCNOTRun (c t : ℕ) (s : ℕ → ℂ) : Except SimError (ℕ → ℂ) :=
  Except.ok (applyCNOT c t s)

/-- `GateType` of `src/languages/c/quantum_simulator.c`. -/
inductive GateType
  | GATE_H
  | GATE_X
  | GATE_Y
  | GATE_Z
  | GATE_CNOT
  | GATE_SWAP
deriving DecidableEq

/-- `apply_hadamard` of the C file; its loop body is identical to the C++
`applyH` embedded above. -/
def apply_hadamard : ℕ → (ℕ → ℂ) → (ℕ → ℂ) := applyH

/-- `apply_pauli_x` of the C file; its loop body is identical to the C++
`applyX` embedded above. -/
def apply_pauli_x : ℕ → (ℕ → ℂ) → (ℕ → ℂ) := applyX

/-- `apply_gate` of the C file: only `GATE_H` and `GATE_X` are dispatched;
every other gate kind falls to the `default:` branch, which prints
"Gate type %d not implemented" to `stderr` and leaves the state untouched. -/
def apply_gate (g : GateType) (target : ℕ) (s : ℕ → ℂ) : ℕ → ℂ :=
  match g with
  | GateType.GATE_H => apply_hadamard target s
  | GateType.GATE_X => apply_pauli_x target s
  | _ => s

/-- `QuantumState` of the C file (`num_qubits`, `dimension = 2^num_qubits`
implicit, and the amplitude array). -/
structure CState where
  num_qubits : ℕ
  amp : ℕ → ℂ

/-- `create_state` of the C file: the only validation is
`num_qubits > MAX_QUBITS` (`MAX_QUBITS = 32`), answered with `NULL` before
any allocation; otherwise `calloc` produces `2^num_qubits` zero amplitudes
(`create_state` does not set `amplitudes[0]`). -/
def create_state (num_qubits : ℕ) : Option CState :=
  if num_qubits > 32 then none
  else some { num_qubits := num_qubits, amp := fun _ => 0 }

/-- `initialize_state` of the C file: zero the array and set
`amplitudes[0] = 1`. -/
def initialize_state (st : CState) : CState :=
  { st with amp := fun i => if i = 0 then 1 else 0 }

/-- `prob0` as §4.3 of the spec words it: the sum of `|amplitude_i|^2` over
the basis indices whose `qubit`-th bit is 0. -/
def prob0Spec (n q : ℕ) (s : ℕ → ℂ) : ℝ :=
  ∑ i ∈ (Finset.range (2 ^ n)).filter (fun i => i.testBit q = false),
    Complex.normSq (s i)

/-- Concrete normalized 2-qubit register with amplitudes `3/5` and `4/5` on
basis states `00` and `01`; its qubit-0 marginal `prob0 = 9/25` lies strictly
between 0 and 1. -/
def stateC3 : ℕ → ℂ := fun i =>
  if i = 0 then ((3/5 : ℝ) : ℂ) else if i = 1 then ((4/5 : ℝ) : ℂ) else 0

/-- Concrete 1-qubit register with amplitude `2^(-20)` on basis state `0` and
`1` on basis state `1`: its `prob0 = 2^(-40)` is positive yet far below the
1e-9 tolerance. -/
def tinyState : ℕ → ℂ := fun i =>
  if i = 0 then ((1/1048576 : ℝ) : ℂ) else if i = 1 then 1 else 0

/-- Concrete 1-qubit register fully supported on basis index 1. -/
def oneState : ℕ → ℂ := fun i => if i = 1 then 1 else 0

end

/-! Helper lemmas about the index pairing `i ↦ i ^^^ 2 ^ q` that the gate
loops rely on, and the resulting conservation facts. -/

open Finset

lemma testBit_xor_pow (k q : ℕ) : (k ^^^ 2 ^ q).testBit q = ! k.testBit q := by
  simp [Nat.testBit_xor]

lemma testBit_xor_pow_ne {c t : ℕ} (hct : c ≠ t) (k : ℕ) :
    (k ^^^ 2 ^ t).testBit c = k.testBit c := by
  simp [Nat.testBit_xor, Nat.testBit_two_pow, Ne.symm hct]

lemma xor_pow_lt {n q k : ℕ} (hq : q < n) (hk : k < 2 ^ n) : k ^^^ 2 ^ q < 2 ^ n :=
  Nat.xor_lt_two_pow hk (Nat.pow_lt_pow_right one_lt_two hq)

lemma sum_invol (n : ℕ) (σ : ℕ → ℕ) (hmem : ∀ k, k < 2 ^ n → σ k < 2 ^ n)
    (hinv : ∀ k, k < 2 ^ n → σ (σ k) = k) (f : ℕ → ℝ) :
    ∑ i ∈ range (2 ^ n), f (σ i) = ∑ i ∈ range (2 ^ n), f i := by
  refine Finset.sum_nbij' σ σ ?_ ?_ ?_ ?_ ?_
  · intro a ha
    exact mem_range.mpr (hmem a (mem_range.mp ha))
  · intro a ha
    exact mem_range.mpr (hmem a (mem_range.mp ha))
  · intro a ha
    exact hinv a (mem_range.mp ha)
  · intro a ha
    exact hinv a (mem_range.mp ha)
  · intro a ha
    rfl

lemma sum_pairs (n q : ℕ) (hq : q < n) (f : ℕ → ℝ) :
    ∑ i ∈ range (2 ^ n), f i
      = ∑ i ∈ (range (2 ^ n)).filter (fun i => i.testBit q = false),
          (f i + f (i ^^^ 2 ^ q)) := by
  rw [← Finset.sum_filter_add_sum_filter_not (range (2 ^ n))
      (fun i => i.testBit q = false) f, Finset.sum_add_distrib]
  congr 1
  refine Finset.sum_nbij' (fun i => i ^^^ 2 ^ q) (fun i => i ^^^ 2 ^ q) ?_ ?_ ?_ ?_ ?_
  · intro a ha
    rcases mem_filter.mp ha with ⟨har, hab⟩
    refine mem_filter.mpr ⟨mem_range.mpr (xor_pow_lt hq (mem_range.mp har)), ?_⟩
    simp [testBit_xor_pow]
    simpa using hab
  · intro a ha
    rcases mem_filter.mp ha with ⟨har, hab⟩
    refine mem_filter.mpr ⟨mem_range.mpr (xor_pow_lt hq (mem_range.mp har)), ?_⟩
    simp [testBit_xor_pow, hab]
  · intro a _
    exact Nat.xor_cancel_right _ _
  · intro a _
    exact Nat.xor_cancel_right _ _
  · intro a _
    rw [Nat.xor_cancel_right]

lemma normSq_hadamard_pair (a b : ℂ) :
    Complex.normSq ((a + b) / (Real.sqrt 2 : ℂ))
      + Complex.normSq ((a - b) / (Real.sqrt 2 : ℂ))
      = Complex.normSq a + Complex.normSq b := by
  rw [map_div₀, map_div₀, Complex.normSq_ofReal,
    Real.mul_self_sqrt (by norm_num : (0:ℝ) ≤ 2), Complex.normSq_add,
    Complex.normSq_sub]
  ring

lemma normSq_rotation_pair (c d : ℝ) (hcd : c ^ 2 + d ^ 2 = 1) (a b : ℂ) :
    Complex.normSq ((c : ℂ) * a - (d : ℂ) * b)
      + Complex.normSq ((d : ℂ) * a + (c : ℂ) * b)
      = Complex.normSq a + Complex.normSq b := by
  simp only [Complex.normSq_apply, Complex.add_re, Complex.add_im, Complex.sub_re,
    Complex.sub_im, Complex.mul_re, Complex.mul_im, Complex.ofReal_re, Complex.ofReal_im]
  linear_combination (a.re ^ 2 + a.im ^ 2 + b.re ^ 2 + b.im ^ 2) * hcd

lemma normSum_applyH (n q : ℕ) (hq : q < n) (s : ℕ → ℂ) :
    normSum n (applyH q s) = normSum n s := by
  unfold normSum
  rw [sum_pairs n q hq (fun i => Complex.normSq (applyH q s i)),
      sum_pairs n q hq (fun i => Complex.normSq (s i))]
  refine Finset.sum_congr rfl ?_
  intro i hi
  rcases mem_filter.mp hi with ⟨_, hib⟩
  have hib' : i.testBit q = false := by simpa using hib
  have h1 : (i ^^^ 2 ^ q).testBit q = true := by simp [testBit_xor_pow, hib']
  have e0 : applyH q s i = (s i + s (i ^^^ 2 ^ q)) / (Real.sqrt 2 : ℂ) := by
    simp [applyH, hib']
  have e1 : applyH q s (i ^^^ 2 ^ q) = (s i - s (i ^^^ 2 ^ q)) / (Real.sqrt 2 : ℂ) := by
    simp [applyH, h1, Nat.xor_cancel_right]
  rw [e0, e1, normSq_hadamard_pair]

lemma normSum_applyX (n q : ℕ) (hq : q < n) (s : ℕ → ℂ) :
    normSum n (applyX q s) = normSum n s := by
  unfold normSum applyX
  exact sum_invol n (fun k => k ^^^ 2 ^ q) (fun k hk => xor_pow_lt hq hk)
    (fun k _ => Nat.xor_cancel_right _ _) (fun i => Complex.normSq (s i))

lemma normSum_applyRY (n q : ℕ) (theta : ℝ) (hq : q < n) (s : ℕ → ℂ) :
    normSum n (applyRY q theta s) = normSum n s := by
  unfold normSum
  rw [sum_pairs n q hq (fun i => Complex.normSq (applyRY q theta s i)),
      sum_pairs n q hq (fun i => Complex.normSq (s i))]
  refine Finset.sum_congr rfl ?_
  intro i hi
  rcases mem_filter.mp hi with ⟨_, hib⟩
  have hib' : i.testBit q = false := by simpa using hib
  have h1 : (i ^^^ 2 ^ q).testBit q = true := by simp [testBit_xor_pow, hib']
  have e0 : applyRY q theta s i
      = (Real.cos (theta / 2) : ℂ) * s i - (Real.sin (theta / 2) : ℂ) * s (i ^^^ 2 ^ q) := by
    simp [applyRY, hib']
  have e1 : applyRY q theta s (i ^^^ 2 ^ q)
      = (Real.sin (theta / 2) : ℂ) * s i + (Real.cos (theta / 2) : ℂ) * s (i ^^^ 2 ^ q) := by
    simp [applyRY, h1, Nat.xor_cancel_right]
  rw [e0, e1, normSq_rotation_pair _ _ (Real.cos_sq_add_sin_sq _)]

lemma applyCNOT_of_ne {c t : ℕ} (hct : c ≠ t) (s : ℕ → ℂ) (k : ℕ) :
    applyCNOT c t s k = if k.testBit c then s (k ^^^ 2 ^ t) else s k := by
  have hc := testBit_xor_pow_ne hct k
  have ht := testBit_xor_pow k t
  unfold applyCNOT
  by_cases hkc : k.testBit c <;> by_cases hkt : k.testBit t <;>
    simp [hkc, hkt, hc, ht]

lemma applyCNOT_self (c : ℕ) (s : ℕ → ℂ) : applyCNOT c c s = s := by
  funext k
  unfold applyCNOT
  by_cases h : k.testBit c <;> simp [h, testBit_xor_pow]

lemma normSum_applyCNOT (n c t : ℕ) (ht : t < n) (hct : c ≠ t) (s : ℕ → ℂ) :
    normSum n (applyCNOT c t s) = normSum n s := by
  unfold normSum
  calc ∑ i ∈ range (2 ^ n), Complex.normSq (applyCNOT c t s i)
      = ∑ i ∈ range (2 ^ n),
          (fun j => Complex.normSq (s j)) (if i.testBit c then i ^^^ 2 ^ t else i) := by
        refine Finset.sum_congr rfl ?_
        intro i _
        rw [applyCNOT_of_ne hct]
        by_cases h : i.testBit c <;> simp [h]
    _ = ∑ i ∈ range (2 ^ n), Complex.normSq (s i) := by
        refine sum_invol n (fun k => if k.testBit c then k ^^^ 2 ^ t else k) ?_ ?_
            (fun j => Complex.normSq (s j))
        · intro k hk
          by_cases h : k.testBit c <;> simp [h, xor_pow_lt ht hk, hk]
        · intro k hk
          by_cases h : k.testBit c
          · simp [h, testBit_xor_pow_ne hct, Nat.xor_cancel_right]
          · simp [h]

lemma normSq_div_sqrt (z : ℂ) (p : ℝ) (hp : 0 ≤ p) :
    Complex.normSq (z / (Real.sqrt p : ℂ)) = Complex.normSq z / p := by
  rw [map_div₀, Complex.normSq_ofReal, Real.mul_self_sqrt hp]

lemma prob0_add_prob1 (n q : ℕ) (s : ℕ → ℂ) :
    prob0 n q s + (∑ i ∈ range (2 ^ n), if i.testBit q then Complex.normSq (s i) else 0)
      = normSum n s := by
  unfold prob0 normSum
  rw [← Finset.sum_add_distrib]
  refine Finset.sum_congr rfl ?_
  intro i _
  by_cases h : i.testBit q <;> simp [h]

lemma normSum_collapse0 (n q : ℕ) (s : ℕ → ℂ) (hp : 0 < prob0 n q s) :
    normSum n (fun i => if i.testBit q then 0 else s i / (Real.sqrt (prob0 n q s) : ℂ))
      = 1 := by
  unfold normSum
  have key : ∀ i, Complex.normSq
        (if i.testBit q then (0:ℂ) else s i / (Real.sqrt (prob0 n q s) : ℂ))
      = (if i.testBit q then 0 else Complex.normSq (s i)) / prob0 n q s := by
    intro i
    by_cases h : i.testBit q
    · simp [h]
    · simp [h, normSq_div_sqrt _ _ hp.le]
  rw [Finset.sum_congr rfl (fun i _ => key i), ← Finset.sum_div]
  have hdef : (∑ i ∈ range (2 ^ n), if i.testBit q then 0 else Complex.normSq (s i))
      = prob0 n q s := rfl
  rw [hdef]
  exact div_self (ne_of_gt hp)

lemma normSum_collapse1 (n q : ℕ) (s : ℕ → ℂ) (hnorm : normSum n s = 1)
    (hp : prob0 n q s < 1) :
    normSum n (fun i => if i.testBit q then s i / (Real.sqrt (1 - prob0 n q s) : ℂ) else 0)
      = 1 := by
  have h1 : (0:ℝ) < 1 - prob0 n q s := by linarith
  have hsum1 : (∑ i ∈ range (2 ^ n), if i.testBit q then Complex.normSq (s i) else 0)
      = 1 - prob0 n q s := by
    have h := prob0_add_prob1 n q s
    rw [hnorm] at h
    linarith
  unfold normSum
  have key : ∀ i, Complex.normSq
        (if i.testBit q then s i / (Real.sqrt (1 - prob0 n q s) : ℂ) else 0)
      = (if i.testBit q then Complex.normSq (s i) else 0) / (1 - prob0 n q s) := by
    intro i
    by_cases h : i.testBit q
    · simp [h, normSq_div_sqrt _ _ h1.le]
    · simp [h]
  rw [Finset.sum_congr rfl (fun i _ => key i), ← Finset.sum_div, hsum1]
  exact div_self (ne_of_gt h1)

lemma normSum_measure (n q : ℕ) (r : ℝ) (s : ℕ → ℂ) (hnorm : normSum n s = 1)
    (h0 : 0 < prob0 n q s) (h1 : prob0 n q s < 1) :
    normSum n (measure n q r s).2 = 1 := by
  unfold measure
  by_cases hr : r < prob0 n q s
  · rw [if_pos hr]
    exact normSum_collapse0 n q s h0
  · rw [if_neg hr]
    exact normSum_collapse1 n q s hnorm h1

lemma prob0_collapse0 (n q : ℕ) (s : ℕ → ℂ) (p : ℝ) (hp : 0 < p)
    (hps : prob0 n q s = p) :
    prob0 n q (fun i => if i.testBit q then 0 else s i / (Real.sqrt p : ℂ)) = 1 := by
  unfold prob0
  have key : ∀ i : ℕ, (if i.testBit q then (0:ℝ) else Complex.normSq
        (if i.testBit q then (0:ℂ) else s i / (Real.sqrt p : ℂ)))
      = (if i.testBit q then 0 else Complex.normSq (s i)) / p := by
    intro i
    by_cases h : i.testBit q
    · simp [h]
    · simp [h, normSq_div_sqrt _ _ hp.le]
  rw [Finset.sum_congr rfl (fun i _ => key i), ← Finset.sum_div]
  have hdef : (∑ i ∈ range (2 ^ n), if i.testBit q then 0 else Complex.normSq (s i))
      = prob0 n q s := rfl
  rw [hdef, hps]
  exact div_self (ne_of_gt hp)

lemma prob0_collapse1 (n q : ℕ) (s : ℕ → ℂ) (p : ℝ) :
    prob0 n q (fun i => if i.testBit q then s i / (Real.sqrt p : ℂ) else 0) = 0 := by
  unfold prob0
  refine Finset.sum_eq_zero ?_
  intro i _
  by_cases h : i.testBit q <;> simp [h]

lemma prob0_eq_spec (n q : ℕ) (s : ℕ → ℂ) : prob0 n q s = prob0Spec n q s := by
  unfold prob0 prob0Spec
  rw [Finset.sum_filter]
  refine Finset.sum_congr rfl ?_
  intro i _
  by_cases h : i.testBit q <;> simp [h]

/-! Evaluation of the marginals and total mass of the concrete registers. -/

lemma normSum_stateC3 : normSum 2 stateC3 = 1 := by
  unfold normSum stateC3
  simp [Finset.sum_range_succ, Complex.normSq_ofReal]
  norm_num

lemma prob0_stateC3 : prob0 2 0 stateC3 = 9/25 := by
  unfold prob0 stateC3
  simp +decide [Finset.sum_range_succ, Complex.normSq_ofReal]
  norm_num

lemma prob0_tinyState : prob0 1 0 tinyState = 1/1099511627776 := by
  unfold prob0 tinyState
  simp +decide [Finset.sum_range_succ, Complex.normSq_ofReal]
  norm_num

lemma prob0_oneState : prob0 1 0 oneState = 0 := by
  unfold prob0 oneState
  simp +decide [Finset.sum_range_succ]

lemma prob0_initState : prob0 1 0 initState = 1 := by
  unfold prob0 initState
  simp +decide [Finset.sum_range_succ]

lemma prob0Spec_initState : prob0Spec 1 0 initState = 1 := by
  unfold prob0Spec initState
  rw [show ((Finset.range (2 ^ 1)).filter (fun i => i.testBit 0 = false)) = {0} by decide]
  simp

lemma normSum_initState (n : ℕ) : normSum n initState = 1 := by
  unfold normSum initState
  rw [Finset.sum_congr rfl
    (fun i _ => by by_cases h : i = 0 <;> simp [h] :
      ∀ i ∈ range (2 ^ n), Complex.normSq (if i = 0 then (1:ℂ) else 0)
        = if i = 0 then 1 else 0)]
  rw [Finset.sum_ite_eq' (range (2 ^ n)) 0 (fun _ => (1:ℝ))]
  simp [Nat.pos_pow_of_pos]

/-! The claims. -/

/-- C1: on a 2-qubit register freshly constructed in state 00, Hadamard on
qubit 0 followed by CNOT(control 0, target 1) yields amplitude `1/√2` at
basis indices 0 and 3 and amplitude 0 at basis indices 1 and 2, each within
1e-9. -/
theorem bell_state_amplitudes :
    Complex.abs (createBellState 0 - ((Real.sqrt 2)⁻¹ : ℝ)) ≤ 1e-9 ∧
    Complex.abs (createBellState 3 - ((Real.sqrt 2)⁻¹ : ℝ)) ≤ 1e-9 ∧
    Complex.abs (createBellState 1) ≤ 1e-9 ∧
    Complex.abs (createBellState 2) ≤ 1e-9 := by
  have h0 : createBellState 0 = ((Real.sqrt 2)⁻¹ : ℝ) := by
    simp +decide [createBellState, applyCNOT, applyH, initState]
  have h3 : createBellState 3 = ((Real.sqrt 2)⁻¹ : ℝ) := by
    simp +decide [createBellState, applyCNOT, applyH, initState]
  have h1 : createBellState 1 = 0 := by
    simp +decide [createBellState, applyCNOT, applyH, initState]
  have h2 : createBellState 2 = 0 := by
    simp +decide [createBellState, applyCNOT, applyH, initState]
  rw [h0, h3, h1, h2]
  norm_num

/-- C2: `measure` computes `prob0` as the spec describes (sum of squared
moduli over the indices whose `qubit`-th bit is 0), and relative to the
drawn sample `r`: when `r < prob0` it returns bit 0, zeroes every bit-1
amplitude and divides every survivor by `√prob0`; otherwise it returns
bit 1, zeroes every bit-0 amplitude and divides the survivors by
`√(1 − prob0)`. -/
theorem measure_follows_spec (n q : ℕ) (r : ℝ) (s : ℕ → ℂ) :
    (r < prob0Spec n q s →
      (measure n q r s).1 = 0 ∧
      ∀ i, (i.testBit q → (measure n q r s).2 i = 0) ∧
        (¬ i.testBit q →
          (measure n q r s).2 i = s i / (Real.sqrt (prob0Spec n q s) : ℂ))) ∧
    (prob0Spec n q s ≤ r →
      (measure n q r s).1 = 1 ∧
      ∀ i, (¬ i.testBit q → (measure n q r s).2 i = 0) ∧
        (i.testBit q →
          (measure n q r s).2 i = s i / (Real.sqrt (1 - prob0Spec n q s) : ℂ))) := by
  rw [← prob0_eq_spec n q s]
  constructor
  · intro hr
    have hm : measure n q r s
        = (0, fun i => if i.testBit q then 0 else s i / (Real.sqrt (prob0 n q s) : ℂ)) := by
      unfold measure
      rw [if_pos hr]
    rw [hm]
    refine ⟨rfl, ?_⟩
    intro i
    constructor
    · intro h
      simp [h]
    · intro h
      simp [h]
  · intro hr
    have hm : measure n q r s
        = (1, fun i =>
            if i.testBit q then s i / (Real.sqrt (1 - prob0 n q s) : ℂ) else 0) := by
      unfold measure
      rw [if_neg (not_lt.mpr hr)]
    rw [hm]
    refine ⟨rfl, ?_⟩
    intro i
    constructor
    · intro h
      simp [h]
    · intro h
      simp [h]

/-- Witness for C2 at the fresh 1-qubit register with `r = 1/2 < prob0 = 1`:
outcome bit 0, the bit-1 amplitude is zeroed and the surviving amplitude is
divided by `√prob0`. -/
theorem measure_follows_spec_witness :
    (measure 1 0 (1/2 : ℝ) initState).1 = 0 ∧
    (measure 1 0 (1/2 : ℝ) initState).2 1 = 0 ∧
    (measure 1 0 (1/2 : ℝ) initState).2 0
      = initState 0 / (Real.sqrt (prob0Spec 1 0 initState) : ℂ) := by
  have hp : (1/2 : ℝ) < prob0Spec 1 0 initState := by
    rw [prob0Spec_initState]
    norm_num
  have h := (measure_follows_spec 1 0 (1/2 : ℝ) initState).1 hp
  exact ⟨h.1, (h.2 1).1 (by decide), (h.2 0).2 (by decide)⟩

/-- C3: starting from any normalized register, each single completed
operation — Hadamard, PauliX or RotationY on any in-range target, CNOT with
distinct in-range control and target, or a measurement whose `prob0` lies
strictly between 0 and 1 — leaves the total probability mass equal to 1
within 1e-9.  Each conjunct carries only its own side conditions, so every
operation the claim covers is included — any register size (1-qubit
registers have no admissible CNOT, but all their single-qubit gates are
covered) and any normalized state, basis states included. -/
theorem operations_preserve_normalization (n : ℕ) (s : ℕ → ℂ)
    (hnorm : normSum n s = 1) :
    (∀ q, q < n → |normSum n (applyH q s) - 1| ≤ 1e-9) ∧
    (∀ q, q < n → |normSum n (applyX q s) - 1| ≤ 1e-9) ∧
    (∀ q theta, q < n → |normSum n (applyRY q theta s) - 1| ≤ 1e-9) ∧
    (∀ c t, c < n → t < n → c ≠ t → |normSum n (applyCNOT c t s) - 1| ≤ 1e-9) ∧
    (∀ q r, 0 < prob0 n q s → prob0 n q s < 1 →
      |normSum n (measure n q r s).2 - 1| ≤ 1e-9) := by
  refine ⟨?_, ?_, ?_, ?_, ?_⟩
  · intro q hq
    rw [normSum_applyH n q hq s, hnorm]
    norm_num
  · intro q hq
    rw [normSum_applyX n q hq s, hnorm]
    norm_num
  · intro q theta hq
    rw [normSum_applyRY n q theta hq s, hnorm]
    norm_num
  · intro c t _ ht hct
    rw [normSum_applyCNOT n c t ht hct s, hnorm]
    norm_num
  · intro q r hp0 hp1
    rw [normSum_measure n q r s hnorm hp0 hp1]
    norm_num

/-- Witness for C3: on the normalized 2-qubit register `stateC3`
(`prob0 = 9/25`) every operation kind is exercised, and on the fresh
1-qubit register (a basis state, `prob0 = 1`) the single-qubit gates are
exercised — a register size and a state on which the claim also bears. -/
theorem operations_preserve_normalization_witness :
    |normSum 2 (applyH 0 stateC3) - 1| ≤ 1e-9 ∧
    |normSum 2 (applyX 0 stateC3) - 1| ≤ 1e-9 ∧
    |normSum 2 (applyRY 0 0 stateC3) - 1| ≤ 1e-9 ∧
    |normSum 2 (applyCNOT 0 1 stateC3) - 1| ≤ 1e-9 ∧
    |normSum 2 (measure 2 0 (1/2 : ℝ) stateC3).2 - 1| ≤ 1e-9 ∧
    |normSum 1 (applyH 0 initState) - 1| ≤ 1e-9 ∧
    |normSum 1 (applyX 0 initState) - 1| ≤ 1e-9 ∧
    |normSum 1 (applyRY 0 0 initState) - 1| ≤ 1e-9 := by
  have h := operations_preserve_normalization 2 stateC3 normSum_stateC3
  have h1 := operations_preserve_normalization 1 initState (normSum_initState 1)
  exact ⟨h.1 0 (by norm_num), h.2.1 0 (by norm_num), h.2.2.1 0 0 (by norm_num),
    h.2.2.2.1 0 1 (by norm_num) (by norm_num) (by norm_num),
    h.2.2.2.2 0 (1/2) (by rw [prob0_stateC3]; norm_num)
      (by rw [prob0_stateC3]; norm_num),
    h1.1 0 (by norm_num), h1.2.1 0 (by norm_num), h1.2.2.1 0 0 (by norm_num)⟩

/-- C4 counterexample: `applyCNOT` with `control == target` does not raise
`InvalidQubitIndex` — the C++ body has no validity check and no `throw`, so
the call returns normally (with the amplitudes unchanged). -/
theorem cnot_same_indices_returns_ok :
    applyCNOTRun 0 0 initState = Except.ok initState := by
  unfold applyCNOTRun
  rw [applyCNOT_self]

/-- C4 amended: applying CNOT with `control == target` raises no error and
leaves every amplitude unchanged; the call completes normally. -/
theorem cnot_same_indices_no_error (c : ℕ) (s : ℕ → ℂ) :
    applyCNOTRun c c s = Except.ok s := by
  unfold applyCNOTRun
  rw [applyCNOT_self]

/-- C5 counterexample: `create_state(0)` does not raise `CapacityError`; the
C `create_state` only rejects `num_qubits > MAX_QUBITS` and happily
allocates a 1-entry zeroed amplitude array for a 0-qubit register. -/
theorem create_state_zero_succeeds :
    create_state 0 = some { num_qubits := 0, amp := fun _ => 0 } := by
  simp [create_state]

/-- C5 amended: construction fails only for `qubitCount > 32` (NULL before
any allocation); every `qubitCount ≤ 32` — including 0 — succeeds and
allocates `2^qubitCount` zeroed amplitudes. -/
theorem create_state_capacity (n : ℕ) :
    (32 < n → create_state n = none) ∧
    (n ≤ 32 → create_state n = some { num_qubits := n, amp := fun _ => 0 }) := by
  constructor
  · intro h
    simp [create_state, h]
  · intro h
    simp [create_state, Nat.not_lt.mpr h]

/-- Witness for C5 amended at `qubitCount = 33` (rejected) and
`qubitCount = 0` (accepted). -/
theorem create_state_capacity_witness :
    create_state 33 = none ∧
    create_state 0 = some { num_qubits := 0, amp := fun _ => 0 } :=
  ⟨(create_state_capacity 33).1 (by norm_num),
   (create_state_capacity 0).2 (by norm_num)⟩

/-- C6 counterexample: dispatching `GATE_Z` on a register fully supported on
basis index 1 leaves the amplitude at index 1 equal to `1`, whereas the
Pauli-Z unitary would require `−1`: the C `apply_gate` does not implement
Z (nor Y, CNOT, SWAP). -/
theorem pauli_z_not_dispatched :
    apply_gate GateType.GATE_Z 0 oneState 1 = 1 ∧ (1 : ℂ) ≠ -1 := by
  constructor
  · simp [apply_gate, oneState]
  · norm_num

/-- C6 amended: of the enumerated gate set only `GATE_H` and `GATE_X` are
dispatched to their unitaries; `GATE_Y`, `GATE_Z`, `GATE_CNOT` and
`GATE_SWAP` fall to the not-implemented branch, which reports to `stderr`
and leaves every amplitude unchanged. -/
theorem apply_gate_dispatch (t : ℕ) (s : ℕ → ℂ) :
    apply_gate GateType.GATE_H t s = apply_hadamard t s ∧
    apply_gate GateType.GATE_X t s = apply_pauli_x t s ∧
    apply_gate GateType.GATE_Y t s = s ∧
    apply_gate GateType.GATE_Z t s = s ∧
    apply_gate GateType.GATE_CNOT t s = s ∧
    apply_gate GateType.GATE_SWAP t s = s :=
  ⟨rfl, rfl, rfl, rfl, rfl, rfl⟩

/-- C7 counterexample: with `prob0 = 2^(-40)` — positive but within 1e-9 of
0 — `measure` still consults the drawn sample: the draw `2^(-41)` produces
outcome bit 0, not the deterministic bit 1 the claim requires, and the
surviving amplitude is divided by `√prob0 = 2^(-20) < 1e-3`. -/
theorem measure_no_tolerance_guard :
    0 < prob0 1 0 tinyState ∧ prob0 1 0 tinyState < 1e-9 ∧
    (0:ℝ) ≤ 1/2199023255552 ∧ (1/2199023255552 : ℝ) < 1 ∧
    (measure 1 0 (1/2199023255552 : ℝ) tinyState).1 = 0 ∧
    (measure 1 0 (1/2199023255552 : ℝ) tinyState).2 0
      = tinyState 0 / (Real.sqrt (prob0 1 0 tinyState) : ℂ) ∧
    Real.sqrt (prob0 1 0 tinyState) < 1e-3 := by
  have hlt : (1/2199023255552 : ℝ) < prob0 1 0 tinyState := by
    rw [prob0_tinyState]
    norm_num
  have hm : measure 1 0 (1/2199023255552 : ℝ) tinyState
      = (0, fun i => if i.testBit 0 then 0
          else tinyState i / (Real.sqrt (prob0 1 0 tinyState) : ℂ)) := by
    unfold measure
    rw [if_pos hlt]
  have hsqrt : Real.sqrt (prob0 1 0 tinyState) = 1/1048576 := by
    rw [prob0_tinyState, show (1/1099511627776 : ℝ) = (1/1048576)^2 by norm_num,
      Real.sqrt_sq (by norm_num)]
  refine ⟨by rw [prob0_tinyState]; norm_num, by rw [prob0_tinyState]; norm_num,
    by norm_num, by norm_num, ?_, ?_, ?_⟩
  · rw [hm]
  · rw [hm]
    simp
  · rw [hsqrt]
    norm_num

/-- C7 amended: `measure` never skips the random draw, but at the exact
boundaries the outcome is independent of it: with `prob0 = 0` every draw
`r ≥ 0` yields bit 1 and the survivors are divided by `√(1−0) = 1`; with
`prob0 = 1` every draw `r < 1` yields bit 0 and the survivors are divided
by `√1 = 1` — no division by a zero quantity occurs in these exact cases. -/
theorem measure_exact_boundary (n q : ℕ) (r : ℝ) (s : ℕ → ℂ) :
    (prob0 n q s = 0 → 0 ≤ r →
      (measure n q r s).1 = 1 ∧
      (measure n q r s).2 = fun i => if i.testBit q then s i else 0) ∧
    (prob0 n q s = 1 → r < 1 →
      (measure n q r s).1 = 0 ∧
      (measure n q r s).2 = fun i => if i.testBit q then 0 else s i) := by
  constructor
  · intro hp hr
    unfold measure
    rw [hp, if_neg (by linarith : ¬ r < (0:ℝ))]
    refine ⟨rfl, ?_⟩
    funext i
    by_cases h : i.testBit q <;> simp [h]
  · intro hp hr
    unfold measure
    rw [hp, if_pos hr]
    refine ⟨rfl, ?_⟩
    funext i
    by_cases h : i.testBit q <;> simp [h]

/-- Witness for C7 amended: `oneState` has `prob0 = 0` (bit 1 comes out
deterministically), `initState` has `prob0 = 1` (bit 0 comes out
deterministically), both at draw `r = 1/2`. -/
theorem measure_exact_boundary_witness :
    ((measure 1 0 (1/2 : ℝ) oneState).1 = 1 ∧
      (measure 1 0 (1/2 : ℝ) oneState).2
        = fun i => if i.testBit 0 then oneState i else 0) ∧
    ((measure 1 0 (1/2 : ℝ) initState).1 = 0 ∧
      (measure 1 0 (1/2 : ℝ) initState).2
        = fun i => if i.testBit 0 then 0 else initState i) :=
  ⟨(measure_exact_boundary 1 0 (1/2 : ℝ) oneState).1 prob0_oneState (by norm_num),
   (measure_exact_boundary 1 0 (1/2 : ℝ) initState).2 prob0_initState (by norm_num)⟩

/-- C8: immediately after construction the register is in the all-zero basis
state: probability 1 at index 0, probability 0 everywhere else, total mass 1
within 1e-9; the C pipeline `create_state` followed by `initialize_state`
produces the same amplitudes for every accepted qubit count. -/
theorem fresh_register_ground_state (n : ℕ) (hn : 1 ≤ n) :
    probabilities initState 0 = 1 ∧
    (∀ i, i ≠ 0 → probabilities initState i = 0) ∧
    |normSum n initState - 1| ≤ 1e-9 ∧
    (n ≤ 32 → Option.map initialize_state (create_state n)
        = some { num_qubits := n, amp := initState }) := by
  refine ⟨by simp [probabilities, initState], ?_, ?_, ?_⟩
  · intro i hi
    simp [probabilities, initState, hi]
  · have hsum : normSum n initState = 1 := by
      unfold normSum initState
      rw [Finset.sum_congr rfl
        (fun i _ => by by_cases h : i = 0 <;> simp [h] :
          ∀ i ∈ range (2 ^ n), Complex.normSq (if i = 0 then (1:ℂ) else 0)
            = if i = 0 then 1 else 0)]
      rw [Finset.sum_ite_eq' (range (2 ^ n)) 0 (fun _ => (1:ℝ))]
      simp [Nat.pos_pow_of_pos]
    rw [hsum]
    norm_num
  · intro hle
    unfold create_state
    rw [if_neg (by omega : ¬ n > 32)]
    rfl

/-- Witness for C8 at `n = 1`. -/
theorem fresh_register_ground_state_witness :
    probabilities initState 0 = 1 ∧
    probabilities initState 1 = 0 ∧
    |normSum 1 initState - 1| ≤ 1e-9 ∧
    Option.map initialize_state (create_state 1)
      = some { num_qubits := 1, amp := initState } := by
  have h := fresh_register_ground_state 1 le_rfl
  exact ⟨h.1, h.2.1 1 (by norm_num), h.2.2.1, h.2.2.2 (by norm_num)⟩

/-- C9: measurement is idempotent per qubit — whatever the first draw `r`
produced, a repeated measurement of the same qubit returns the same bit for
every second draw `r2` in `[0,1)` and leaves the amplitudes unchanged. -/
theorem measure_idempotent (n q : ℕ) (r r2 : ℝ) (s : ℕ → ℂ)
    (hr : 0 ≤ r) (hr2l : 0 ≤ r2) (hr2u : r2 < 1) :
    (measure n q r2 (measure n q r s).2).1 = (measure n q r s).1 ∧
    (measure n q r2 (measure n q r s).2).2 = (measure n q r s).2 := by
  by_cases hcase : r < prob0 n q s
  · have hp : 0 < prob0 n q s := lt_of_le_of_lt hr hcase
    have hfst : measure n q r s
        = (0, fun i => if i.testBit q then 0 else s i / (Real.sqrt (prob0 n q s) : ℂ)) := by
      unfold measure
      rw [if_pos hcase]
    rw [hfst]
    have hp1 : prob0 n q
        (fun i => if i.testBit q then 0 else s i / (Real.sqrt (prob0 n q s) : ℂ)) = 1 :=
      prob0_collapse0 n q s (prob0 n q s) hp rfl
    unfold measure
    rw [hp1, if_pos hr2u]
    refine ⟨rfl, ?_⟩
    funext i
    by_cases h : i.testBit q <;> simp [h]
  · have hfst : measure n q r s
        = (1, fun i =>
            if i.testBit q then s i / (Real.sqrt (1 - prob0 n q s) : ℂ) else 0) := by
      unfold measure
      rw [if_neg hcase]
    rw [hfst]
    have hp0 : prob0 n q
        (fun i => if i.testBit q then s i / (Real.sqrt (1 - prob0 n q s) : ℂ) else 0)
        = 0 := prob0_collapse1 n q s _
    unfold measure
    rw [hp0, if_neg (by linarith : ¬ r2 < (0:ℝ))]
    refine ⟨rfl, ?_⟩
    funext i
    by_cases h : i.testBit q <;> simp [h]

/-- Witness for C9 on the fresh 1-qubit register with both draws `1/2`. -/
theorem measure_idempotent_witness :
    (measure 1 0 (1/2 : ℝ) (measure 1 0 (1/2 : ℝ) initState).2).1
        = (measure 1 0 (1/2 : ℝ) initState).1 ∧
    (measure 1 0 (1/2 : ℝ) (measure 1 0 (1/2 : ℝ) initState).2).2
        = (measure 1 0 (1/2 : ℝ) initState).2 :=
  measure_idempotent 1 0 (1/2) (1/2) initState (by norm_num) (by norm_num) (by norm_num)

/-- C10: in the C++ simulator, `applyCNOT(c, c)` is the identity and
completes normally: with coinciding control and target masks the loop's swap
condition (control bit set while target bit clear) is unsatisfiable, so no
amplitude moves and nothing is raised or reported. -/
theorem cnot_same_control_target_identity (c : ℕ) (s : ℕ → ℂ) :
    applyCNOT c c s = s :=
  applyCNOT_self c s

end QuantumSim
